import Mathlib

/-!
Verification development for `kemenn` (file `src/kemenn.rs` of
elb-dev-tools-ng): a tool that announces a project release by mail.

The file shallowly embeds the core pipeline of the program:
  * `get_project_name` — project name derived from the remote URL;
  * `extract_semantic` — semantic-version extraction from a raw tag,
    embedding the regex `([^.]+)?([\d]+\.[\d]+\.[\d].*)` together with the
    leftmost-first match semantics of the regex crate and backtracking-style
    (greedy-preferring) capture assignment;
  * `get_repo_changelog` — the changelog-section scan, embedding the
    per-version heading pattern `^##\s+\[VERSION]\s+-\s+\d{4}-\d{2}-\d{2}$`
    (the version string is interpolated into the pattern unescaped; the
    embedding covers version strings whose only regex metacharacters are
    dots, which behave as the regex wildcard `.`);
  * `Project::release_info` — the resolution pipeline, with the results of
    the external git commands and of reading the changelog file supplied by
    an explicit `RepoEnv` environment;
  * `MailDataBuilder` — the template-context accumulator over a string map.

Strings are handled at the character-list level where the Rust code indexes
into them; all byte indices computed by the Rust code on the inputs at issue
fall on character boundaries, so the character-level model is exact there.
-/

/-- Error kinds surfaced by the program (the Rust code carries them as
`anyhow` errors; only the kind matters here). -/
inductive KemennError where
  | invalidVersion
  | missingProjectName
  | commandError
  | ioError
deriving DecidableEq, Repr

/-- Embedding of `struct ReleaseInfo`: information about a release. -/
structure ReleaseInfo where
  project : String
  url : String
  version : String
  changelog : String
deriving DecidableEq, Repr

/-- Results of the external operations consumed by `Project::release_info`:
the trimmed stdout of `git config --get remote.origin.url`, the trimmed
stdout of `git describe --abbrev=0 --tags`, and the lines of the changelog
file (`BufRead::lines` strips the newline terminators; a missing final
newline is handled by line-based reading). -/
structure RepoEnv where
  url : Except KemennError String
  latest : Except KemennError String
  changelog_lines : Except KemennError (List String)

/-! ## The changelog heading pattern

`get_repo_changelog` builds the regex
`^##\s+\[VERSION]\s+-\s+[\d]{4}-[\d]{2}-[\d]{2}$` with the version string
interpolated verbatim and tests each line with `is_match`.  The tokens below
are the elements of that (anchored) pattern; a dot inside the version
becomes the any-character wildcard, every other version character at issue
is literal. -/
inductive RTok where
  | lit (c : Char)
  | anyc
  | wsPlus
  | digit
deriving DecidableEq, Repr

/-- Anchored matching of a token list against a character list, with
backtracking for `\s+` (try the shortest continuation first is wrong for a
greedy `+`, but for an anchored boolean match only existence matters, so
either exploration order decides the same predicate). -/
def toksMatch : List RTok → List Char → Bool
  | [], cs => cs.isEmpty
  | RTok.lit c :: ts, x :: xs => x = c && toksMatch ts xs
  | RTok.anyc :: ts, _ :: xs => toksMatch ts xs
  | RTok.digit :: ts, x :: xs => x.isDigit && toksMatch ts xs
  | RTok.wsPlus :: ts, x :: xs =>
      x.isWhitespace && (toksMatch ts xs || toksMatch (RTok.wsPlus :: ts) xs)
  | _ :: _, [] => false

/-- The version part of the heading pattern: the version string is
interpolated into the regex unescaped, so each dot is the wildcard `.` and
the remaining characters (of the version strings at issue) are literals. -/
def versionToks (v : String) : List RTok :=
  v.toList.map (fun c => if c = '.' then RTok.anyc else RTok.lit c)

/-- The full anchored heading pattern
`^##\s+\[VERSION]\s+-\s+[\d]{4}-[\d]{2}-[\d]{2}$` as a token list. -/
def headingToks (v : String) : List RTok :=
  [RTok.lit '#', RTok.lit '#', RTok.wsPlus, RTok.lit '['] ++ versionToks v ++
  [RTok.lit ']', RTok.wsPlus, RTok.lit '-', RTok.wsPlus,
   RTok.digit, RTok.digit, RTok.digit, RTok.digit, RTok.lit '-',
   RTok.digit, RTok.digit, RTok.lit '-', RTok.digit, RTok.digit]

/-- Embedding of `pattern.is_match(&line)` for the interpolated heading
pattern. -/
def heading_matches (v : String) (line : String) : Bool :=
  toksMatch (headingToks v) line.toList

/-- The heading marker of `line.starts_with("## ")`. -/
def hashMarks : List Char := ['#', '#', ' ']

/-- Character-level embedding of `line.starts_with("## ")`. -/
def starts_with_marker (line : String) : Bool :=
  hashMarks.isPrefixOf line.toList

/-- The scanning loop of `get_repo_changelog`: before a heading matches,
`found` tracks `pattern.is_match(&line)`; once found, every line is
accumulated followed by `'\n'` until a line starting with `"## "` breaks
the loop.  The accumulated text is kept as a character list. -/
def changelog_scan (v : String) : List String → Bool → List Char → List Char
  | [], _, text => text
  | line :: rest, found, text =>
    if !found then changelog_scan v rest (heading_matches v line) text
    else if starts_with_marker line then text
    else changelog_scan v rest found (text ++ line.toList ++ ['\n'])

/-- Embedding of `get_repo_changelog` on the lines of the changelog file
(the file-opening and line-reading failures live in `RepoEnv`). -/
def get_repo_changelog (doc : List String) (version : String) : String :=
  String.mk (changelog_scan version doc false [])

/-- The body lines of a section, each terminated by a newline (the shape of
the text accumulated by `changelog_scan`). -/
def bodyChars : List String → List Char
  | [] => []
  | l :: ls => l.toList ++ '\n' :: bodyChars ls

/-! ## Project name derivation -/

/-- Embedding of Rust `str::split('/')`: the list of '/'-separated pieces;
on the empty string it yields `[[]]`, matching Rust, whose `split` iterator
always yields at least one item. -/
def splitOnSlash : List Char → List (List Char)
  | [] => [[]]
  | c :: cs =>
    if c = '/' then [] :: splitOnSlash cs
    else
      match splitOnSlash cs with
      | [] => [[c]]
      | s :: ss => (c :: s) :: ss

/-- The needle of `project.find(".git")`. -/
def gitToken : List Char := ['.', 'g', 'i', 't']

/-- Embedding of `project.find(".git")`: index of the first occurrence of
the substring `".git"`, if any. -/
def findGitIndex : List Char → Option Nat
  | [] => none
  | c :: cs =>
    if gitToken.isPrefixOf (c :: cs) then some 0
    else (findGitIndex cs).map (fun i => i + 1)

/-- Embedding of `get_project_name`: the last '/'-separated piece of the
URL, truncated before the first occurrence of `".git"` when there is one.
The `Option` mirrors the `?` on `url.split('/').last()`. -/
def get_project_name (url : String) : Option String :=
  match (splitOnSlash url.toList).getLast? with
  | none => none
  | some seg =>
    match findGitIndex seg with
    | some pos => some (String.mk (seg.take pos))
    | none => some (String.mk seg)

/-- Restatement in the words of the specification of the truncation that
`get_project_name` applies to the last segment: cut the segment at the
first occurrence of the substring `".git"` (the whole segment if none). -/
def truncAtGitSpec : List Char → List Char
  | [] => []
  | c :: cs =>
    if gitToken.isPrefixOf (c :: cs) then []
    else c :: truncAtGitSpec cs

/-- Restatement in the words of the specification of the last
'/'-separated path segment of a character list: the suffix after the last
slash, or the whole list when it contains no slash. -/
def lastSegSpec : List Char → List Char
  | [] => []
  | c :: cs =>
    if '/' ∈ cs then lastSegSpec cs
    else if c = '/' then cs
    else c :: cs

/-! ## Semantic version extraction

`extract_semantic` applies the regex `([^.]+)?([\d]+\.[\d]+\.[\d].*)` via
`Regex::captures`.  The regex crate documents leftmost-first match
semantics with capture positions as a backtracking engine would assign
them: the match starts at the smallest possible position, and there the
greedy optional group `([^.]+)?` takes the longest run of non-dot
characters that still lets group 2 match (preferring presence over
absence).  Group 2 itself is forced: `[\d]+` before a literal dot cannot
backtrack usefully (a shorter digit run is followed by a digit, not a
dot), and the final `.*` extends greedily to the end of the haystack or
the first `'\n'` (the regex `.` does not match a newline).  The regex has
two capture groups, so `caps.len()` is the constant 3 and the `1 | 2`
arms of the match in the source are unreachable; the `3` arm returns group 2,
which always participates in a match. -/

/-- Does `[\d]+\.[\d]+\.[\d]` match at the head of the character list?
(The maximal digit runs are forced by the literal dots that follow.) -/
def isSemAt (cs : List Char) : Bool :=
  match cs.span Char.isDigit with
  | (d1, c1 :: r1) =>
    !d1.isEmpty && c1 = '.' &&
      (match r1.span Char.isDigit with
       | (d2, c2 :: r2) =>
         !d2.isEmpty && c2 = '.' &&
           (match r2 with
            | c3 :: _ => c3.isDigit
            | [] => false)
       | _ => false)
  | _ => false

/-- Length of the maximal run of non-dot characters at the head: the
longest candidate for the greedy group `([^.]+)?`. -/
def maxRun (cs : List Char) : Nat :=
  (cs.takeWhile (fun c => c != '.')).length

/-- Try group-1 lengths from `n` down to 1 (the backtracking order of the
greedy `([^.]+)?`), returning the suffix where group 2 starts. -/
def tryGroup1 (cs : List Char) : Nat → Option (List Char)
  | 0 => none
  | n + 1 =>
    if isSemAt (cs.drop (n + 1)) then some (cs.drop (n + 1))
    else tryGroup1 cs n

/-- Match the whole pattern at this position: group 1 present (longest
first) and then absent, per greedy preference; returns the suffix where
group 2 starts. -/
def matchAt (cs : List Char) : Option (List Char) :=
  match tryGroup1 cs (maxRun cs) with
  | some r => some r
  | none => if isSemAt cs then some cs else none

/-- Leftmost match: scan start positions left to right and take the first
where the pattern matches; returns the suffix where group 2 starts. -/
def findGroup2 : List Char → Option (List Char)
  | [] => none
  | c :: cs =>
    match matchAt (c :: cs) with
    | some r => some r
    | none => findGroup2 cs

/-- Embedding of `extract_semantic`: the group-2 text of the leftmost match
of `([^.]+)?([\d]+\.[\d]+\.[\d].*)` (everything from the start of group 2
to the end of the line, since the trailing `.*` is greedy and `.` stops at
a newline), or `Invalid version` if the regex does not match. -/
def extract_semantic (version : String) : Except KemennError String :=
  match findGroup2 version.toList with
  | some g2 => Except.ok (String.mk (g2.takeWhile (fun c => c != '\n')))
  | none => Except.error KemennError.invalidVersion

/-- Decides whether a digits-dot-digits-dot-digits substring occurs in the
string: such a substring occurs exactly when `[\d]+\.[\d]+\.[\d]` matches
at some position (the digit runs of an occurrence are cut off by the dots
that follow them, so checking maximal runs at every start position is
equivalent to the existence of an occurrence). -/
def contains_version_triple (s : String) : Bool :=
  (List.range (s.toList.length + 1)).any (fun q => isSemAt (s.toList.drop q))

/-! ## Release resolution -/

/-- The version resolution step of `release_info`: the explicit version if
given, otherwise the latest tag reported by git. -/
def resolve_version (env : RepoEnv) (version : Option String) : Except KemennError String :=
  match version with
  | some v => Except.ok v
  | none => env.latest

/-- Embedding of `Project::release_info` (with `self.loose` as the first
argument and the external-world results supplied by `env`), keeping the
order of the fallible steps in the source: remote URL, version resolution,
semantic extraction (skipped when loose), project name, changelog read. -/
def release_info (loose : Bool) (env : RepoEnv) (version : Option String) :
    Except KemennError ReleaseInfo :=
  match env.url with
  | Except.error e => Except.error e
  | Except.ok url =>
    match resolve_version env version with
    | Except.error e => Except.error e
    | Except.ok ver =>
      match (if !loose then extract_semantic ver else Except.ok ver) with
      | Except.error e => Except.error e
      | Except.ok sem_version =>
        match get_project_name url with
        | none => Except.error KemennError.missingProjectName
        | some project =>
          match env.changelog_lines with
          | Except.error e => Except.error e
          | Except.ok doc =>
            Except.ok { project := project, url := url, version := ver,
                        changelog := get_repo_changelog doc sem_version }

/-! ## The template-context accumulator -/

/-- Extensional model of the `HashMap<String, String>` inside
`MailDataBuilder`: a finite map as a lookup function. -/
def MailData := String → Option String

/-- Embedding of `HashMap::insert`: binds the key, overwriting any earlier
binding. -/
def md_insert (m : MailData) (k v : String) : MailData :=
  fun q => if q == k then some v else m q

/-- Embedding of `MailDataBuilder::new`: starts with `prefix -> ANNOUNCE`. -/
def MailDataBuilder.new : MailData :=
  md_insert (fun _ => none) "prefix" "ANNOUNCE"

/-- Embedding of `MailDataBuilder::emitter`. -/
def MailDataBuilder.emitter (m : MailData) (e : String) : MailData :=
  md_insert m "emitter" e

/-- Embedding of `MailDataBuilder::recipients`: joins the recipients with a
comma and a space. -/
def MailDataBuilder.recipients (m : MailData) (rs : List String) : MailData :=
  md_insert m "recipients" (String.intercalate ", " rs)

/-- Embedding of `MailDataBuilder::info`: inserts the release fields;
`text` wraps the
changelog body in a fenced block under a what-is-new heading. -/
def MailDataBuilder.info (m : MailData) (i : ReleaseInfo) : MailData :=
  md_insert
    (md_insert (md_insert (md_insert m "project" i.project) "url" i.url)
      "version" i.version)
    "text" ("What\x27s new?\n\n```\n" ++ i.changelog ++ "```")

/-- Embedding of `MailDataBuilder::signature`. -/
def MailDataBuilder.signature (m : MailData) (s : String) : MailData :=
  md_insert m "signature" s

/-- Embedding of `MailDataBuilder::extra`: `HashMap::extend` inserts every
pair of the
extra map (the pairs of a `HashMap` have pairwise distinct keys, so the
iteration order is irrelevant; the embedding takes them as a list). -/
def MailDataBuilder.extra (m : MailData) (ps : List (String × String)) : MailData :=
  ps.foldl (fun acc p => md_insert acc p.1 p.2) m

/-- Embedding of `parse_parameter`'s `splitn(2, ':')`: split at the first
colon, if any. -/
def splitOnceColon : List Char → Option (List Char × List Char)
  | [] => none
  | c :: cs =>
    if c = ':' then some ([], cs)
    else (splitOnceColon cs).map (fun p => (c :: p.1, p.2))

/-- Embedding of `parse_parameter`: a `KEY:VALUE` pair, or `None` when the
string has no colon. -/
def parse_parameter (s : String) : Option (String × String) :=
  (splitOnceColon s.toList).map (fun p => (String.mk p.1, String.mk p.2))

/-- A concrete repository environment: remote URL `a/b.git`, latest tag
`v-1.2.3`, and a changelog with one section for `1.2.3`. -/
def envC8 : RepoEnv :=
  ⟨Except.ok "a/b.git", Except.ok "v-1.2.3",
   Except.ok ["## [1.2.3] - 2024-01-01", "line A"]⟩

/-- The record that strict-mode resolution produces from `envC8` with no
explicit version. -/
def infoC8 : ReleaseInfo :=
  { project := "b", url := "a/b.git", version := "v-1.2.3", changelog := "line A\n" }

/-! ## Theorems -/

/-- The function `splitOnSlash` always yields at least one piece (as the
Rust `split`
iterator does). -/
theorem splitOnSlash_ne_nil (cs : List Char) : splitOnSlash cs ≠ [] := by
  induction cs with
  | nil => simp [splitOnSlash]
  | cons c cs ih =>
    by_cases hc : c = '/'
    · simp [splitOnSlash, hc]
    · cases h : splitOnSlash cs with
      | nil => exact absurd h ih
      | cons s ss => simp [splitOnSlash, hc, h]

/-- The index-based truncation performed by `get_project_name` agrees with
the direct cut-at-the-first-`".git"` description. -/
theorem findGit_take_eq (seg : List Char) :
    (match findGitIndex seg with
     | some pos => seg.take pos
     | none => seg) = truncAtGitSpec seg := by
  induction seg with
  | nil => rfl
  | cons c cs ih =>
    by_cases hp : gitToken.isPrefixOf (c :: cs)
    · simp [findGitIndex, truncAtGitSpec, hp]
    · cases h : findGitIndex cs with
      | none =>
        rw [h] at ih
        simp [findGitIndex, truncAtGitSpec, hp, h, ← ih]
      | some i =>
        rw [h] at ih
        have hidx : findGitIndex (c :: cs) = some (i + 1) := by
          simp [findGitIndex, hp, h]
        have htr : truncAtGitSpec (c :: cs) = c :: truncAtGitSpec cs := by
          simp [truncAtGitSpec, hp]
        rw [hidx, htr]
        show List.take (i + 1) (c :: cs) = c :: truncAtGitSpec cs
        rw [List.take_succ_cons]
        exact congrArg (List.cons c) ih

/-- A list containing a slash splits into at least two pieces. -/
theorem splitOnSlash_length_of_mem (cs : List Char) (h : '/' ∈ cs) :
    2 ≤ (splitOnSlash cs).length := by
  induction cs with
  | nil => cases h
  | cons c cs ih =>
    by_cases hc : c = '/'
    · have hstep : splitOnSlash (c :: cs) = [] :: splitOnSlash cs := by
        simp [splitOnSlash, hc]
      rw [hstep]
      have hlen : 0 < (splitOnSlash cs).length :=
        List.length_pos.mpr (splitOnSlash_ne_nil cs)
      simp only [List.length_cons]
      omega
    · have hmem : '/' ∈ cs := by
        rcases List.mem_cons.mp h with h1 | h2
        · exact absurd h1.symm hc
        · exact h2
      cases hs : splitOnSlash cs with
      | nil => exact absurd hs (splitOnSlash_ne_nil cs)
      | cons s ss =>
        have hstep : splitOnSlash (c :: cs) = (c :: s) :: ss := by
          simp [splitOnSlash, hc, hs]
        rw [hstep]
        have h2 := ih hmem
        rw [hs] at h2
        simpa using h2

/-- A slash-free list splits into a single piece: itself. -/
theorem splitOnSlash_no_slash (b : List Char) (hb : '/' ∉ b) : splitOnSlash b = [b] := by
  induction b with
  | nil => rfl
  | cons c cs ih =>
    have hc : ¬ (c = '/') := by
      intro h
      exact hb (by simp [h])
    have hcs : '/' ∉ cs := fun h => hb (List.mem_cons_of_mem c h)
    simp [splitOnSlash, hc, ih hcs]

/-- A slash-free list is its own last segment. -/
theorem lastSegSpec_no_slash (cs : List Char) (h : '/' ∉ cs) : lastSegSpec cs = cs := by
  cases cs with
  | nil => rfl
  | cons c cs =>
    have hcs : '/' ∉ cs := fun hm => h (List.mem_cons_of_mem c hm)
    have hc : ¬ (c = '/') := by
      intro hh
      exact h (by simp [hh])
    simp [lastSegSpec, hcs, hc]

/-- The last piece produced by `splitOnSlash` is the last '/'-separated
segment in the words of the specification. -/
theorem splitOnSlash_getLast (cs : List Char) :
    (splitOnSlash cs).getLast? = some (lastSegSpec cs) := by
  induction cs with
  | nil => rfl
  | cons c cs ih =>
    by_cases hmem : '/' ∈ cs
    · have hseg : lastSegSpec (c :: cs) = lastSegSpec cs := by
        simp [lastSegSpec, hmem]
      rw [hseg]
      by_cases hc : c = '/'
      · have hstep : splitOnSlash (c :: cs) = [] :: splitOnSlash cs := by
          simp [splitOnSlash, hc]
        rw [hstep]
        cases hs : splitOnSlash cs with
        | nil => exact absurd hs (splitOnSlash_ne_nil cs)
        | cons s ss =>
          rw [List.getLast?_cons_cons]
          rw [hs] at ih
          exact ih
      · cases hs : splitOnSlash cs with
        | nil => exact absurd hs (splitOnSlash_ne_nil cs)
        | cons s ss =>
          have hstep : splitOnSlash (c :: cs) = (c :: s) :: ss := by
            simp [splitOnSlash, hc, hs]
          rw [hstep]
          cases ss with
          | nil =>
            have h2 := splitOnSlash_length_of_mem cs hmem
            rw [hs] at h2
            simp at h2
          | cons s2 ss2 =>
            rw [List.getLast?_cons_cons]
            rw [hs, List.getLast?_cons_cons] at ih
            exact ih
    · have hsp : splitOnSlash cs = [cs] := splitOnSlash_no_slash cs hmem
      by_cases hc : c = '/'
      · have hstep : splitOnSlash (c :: cs) = [] :: splitOnSlash cs := by
          simp [splitOnSlash, hc]
        have hseg : lastSegSpec (c :: cs) = cs := by
          simp [lastSegSpec, hmem, hc]
        rw [hstep, hsp, hseg]
        simp
      · have hstep : splitOnSlash (c :: cs) = (c :: cs) :: [] := by
          simp [splitOnSlash, hc, hsp]
        have hseg : lastSegSpec (c :: cs) = c :: cs := by
          simp [lastSegSpec, hmem, hc]
        rw [hstep, hseg]
        simp

/-- Claim C1 (amended): `get_project_name` succeeds on every URL string — a
Rust `split` iterator always yields at least one item, so `last()` is never
`None` and release resolution can never fail with the missing-project-name
error; for the empty URL the derived name is the empty string. -/
theorem claim_C1_thm (url : String) : ∃ name, get_project_name url = some name := by
  have h1 : (splitOnSlash url.toList).getLast?.isSome := by
    rw [List.getLast?_isSome]
    exact splitOnSlash_ne_nil _
  obtain ⟨seg, hseg⟩ := Option.isSome_iff_exists.mp h1
  cases h : findGitIndex seg with
  | none =>
    exact ⟨String.mk seg, by unfold get_project_name; rw [hseg]; simp [h]⟩
  | some pos =>
    exact ⟨String.mk (seg.take pos), by unfold get_project_name; rw [hseg]; simp [h]⟩

/-- Claim C1, counterexample: on the empty URL (which has no path
segments), `get_project_name` returns `some ""` and `release_info` returns
a release record, not the missing-project-name error. -/
theorem claim_C1_cex :
    get_project_name "" = some "" ∧
    release_info false ⟨Except.ok "", Except.ok "1.2.3", Except.ok []⟩ none =
      Except.ok { project := "", url := "", version := "1.2.3", changelog := "" } :=
  ⟨rfl, rfl⟩

/-- Claim C2 (amended): for EVERY remote URL — slash-free URLs such as
scp-style `git@host:proj.git` included — the derived project name is the
last '/'-separated path segment of the URL cut at the FIRST occurrence of
the substring `".git"` anywhere in the segment (not just a trailing
suffix), and the segment intact when `".git"` does not occur; in
particular `git@example.com:org/myproj.git` and
`https://example.com/org/myproj` both yield `"myproj"`, and the slash-free
`myproj.git` also yields `"myproj"`. -/
theorem claim_C2_thm :
    (∀ url : String,
        get_project_name url =
          some (String.mk (truncAtGitSpec (lastSegSpec url.toList)))) ∧
    get_project_name "git@example.com:org/myproj.git" = some "myproj" ∧
    get_project_name "https://example.com/org/myproj" = some "myproj" ∧
    get_project_name "myproj.git" = some "myproj" := by
  refine ⟨?_, by decide, by decide, by decide⟩
  intro url
  unfold get_project_name
  rw [splitOnSlash_getLast url.toList]
  have := findGit_take_eq (lastSegSpec url.toList)
  cases h : findGitIndex (lastSegSpec url.toList) with
  | none =>
    rw [h] at this
    simp only [h]
    exact congrArg (fun l => some (String.mk l)) this
  | some i =>
    rw [h] at this
    simp only [h]
    exact congrArg (fun l => some (String.mk l)) this

/-- Claim C2, counterexample: the last segment of `org/my.github` has no
trailing `".git"` suffix, yet `get_project_name` does not leave it intact —
it truncates at the embedded `".git"` occurrence and returns `"my"`. -/
theorem claim_C2_cex :
    get_project_name "org/my.github" = some "my" ∧
    gitToken.isSuffixOf "my.github".toList = false := by
  exact ⟨rfl, by decide⟩

/-- Claim C4 (evaluation at the failing inputs): on `"12.3.4"`, already in
MAJOR.MINOR.PATCH form with no prefix, `extract_semantic` returns
`"2.3.4"`, not the input unchanged; on `"x-12.3.4"` (prefix `x`) it
likewise returns `"2.3.4"`, not the `"12.3.4"` suffix.  The greedy optional
group `([^.]+)?` consumes every leading MAJOR digit it can while still
letting `[\d]+\.[\d]+\.[\d].*` match, so MAJOR keeps only its last
digit. -/
theorem claim_C4_thm :
    extract_semantic "12.3.4" = Except.ok "2.3.4" ∧
    extract_semantic "x-12.3.4" = Except.ok "2.3.4" :=
  ⟨rfl, rfl⟩

/-- Claim C9: in the template-context accumulator a later insertion of a
key overwrites any earlier value bound to it; `signature:Bob` parses to the
pair `(signature, Bob)`, and applied as an extra parameter after the
dotfile-derived signature it makes the `signature` field of the context
`"Bob"`, whatever the earlier pipeline inserted. -/
theorem claim_C9_thm :
    (∀ (m : MailData) (k v₁ v₂ : String),
        md_insert (md_insert m k v₁) k v₂ k = some v₂) ∧
    parse_parameter "signature:Bob" = some ("signature", "Bob") ∧
    (∀ (e : String) (rs : List String) (i : ReleaseInfo) (sig : String),
        MailDataBuilder.extra
          (MailDataBuilder.signature
            (MailDataBuilder.info
              (MailDataBuilder.recipients (MailDataBuilder.emitter MailDataBuilder.new e) rs)
              i)
            sig)
          [("signature", "Bob")] "signature" = some "Bob") := by
  refine ⟨?_, rfl, ?_⟩
  · intro m k v₁ v₂
    simp [md_insert]
  · intro e rs i sig
    rfl

/-- Searching phase: lines that do not match the heading pattern are
skipped without touching the accumulated text. -/
theorem scan_skip (v : String) (pre rest : List String) (acc : List Char)
    (h : ∀ l ∈ pre, heading_matches v l = false) :
    changelog_scan v (pre ++ rest) false acc = changelog_scan v rest false acc := by
  induction pre with
  | nil => rfl
  | cons l ls ih =>
    have hl := h l (List.mem_cons_self l ls)
    show changelog_scan v (l :: (ls ++ rest)) false acc = _
    rw [show changelog_scan v (l :: (ls ++ rest)) false acc =
        changelog_scan v (ls ++ rest) (heading_matches v l) acc from rfl, hl]
    exact ih (fun x hx => h x (List.mem_cons_of_mem l hx))

/-- Collecting phase: lines that do not start with `"## "` are appended to
the text, each followed by a newline. -/
theorem scan_collect (v : String) (body rest : List String) :
    ∀ acc : List Char, (∀ l ∈ body, starts_with_marker l = false) →
      changelog_scan v (body ++ rest) true acc =
        changelog_scan v rest true (acc ++ bodyChars body) := by
  induction body with
  | nil => intro acc _; simp [bodyChars]
  | cons l ls ih =>
    intro acc h
    have hl := h l (List.mem_cons_self l ls)
    show changelog_scan v (l :: (ls ++ rest)) true acc = _
    rw [show changelog_scan v (l :: (ls ++ rest)) true acc =
        (if starts_with_marker l then acc
         else changelog_scan v (ls ++ rest) true (acc ++ l.toList ++ ['\n'])) from rfl]
    rw [hl]
    simp only [Bool.false_eq_true, if_false]
    rw [ih (acc ++ l.toList ++ ['\n']) (fun x hx => h x (List.mem_cons_of_mem l hx))]
    simp [bodyChars, List.append_assoc]

/-- Collecting phase: the next top-level heading stops the scan and the
accumulated text is returned, that heading line excluded. -/
theorem scan_stop (v line : String) (rest : List String) (acc : List Char)
    (h : starts_with_marker line = true) :
    changelog_scan v (line :: rest) true acc = acc := by
  rw [show changelog_scan v (line :: rest) true acc =
      (if starts_with_marker line then acc
       else changelog_scan v rest true (acc ++ line.toList ++ ['\n'])) from rfl]
  rw [h]
  simp

/-- Claim C5: on a document made of non-matching lines, then a matching
heading, then body lines, then the next `"## "` heading (and anything
after), `get_repo_changelog` returns exactly the body lines strictly
between the two headings, each terminated with a newline. -/
theorem claim_C5_thm (v : String) (pre : List String) (hd : String) (body : List String)
    (h2 : String) (rest : List String)
    (hpre : ∀ l ∈ pre, heading_matches v l = false)
    (hhd : heading_matches v hd = true)
    (hbody : ∀ l ∈ body, starts_with_marker l = false)
    (hh2 : starts_with_marker h2 = true) :
    get_repo_changelog (pre ++ hd :: (body ++ h2 :: rest)) v = String.mk (bodyChars body) := by
  unfold get_repo_changelog
  rw [scan_skip v pre (hd :: (body ++ h2 :: rest)) [] hpre]
  rw [show changelog_scan v (hd :: (body ++ h2 :: rest)) false [] =
      changelog_scan v (body ++ h2 :: rest) (heading_matches v hd) [] from rfl, hhd]
  rw [scan_collect v body (h2 :: rest) [] hbody]
  rw [List.nil_append]
  rw [scan_stop v h2 rest (bodyChars body) hh2]

/-- Claim C5, witness: the document of the claim, for version `1.2.3`. -/
theorem claim_C5_wit :
    heading_matches "1.2.3" "## [1.2.3] - 2024-01-01" = true ∧
    starts_with_marker "## [1.2.2] - 2023-01-01" = true ∧
    get_repo_changelog
        ["## [1.2.3] - 2024-01-01", "line A", "line B",
         "## [1.2.2] - 2023-01-01", "line C"] "1.2.3" = "line A\nline B\n" := by
  refine ⟨by decide, by decide, ?_⟩
  have h := claim_C5_thm "1.2.3" [] "## [1.2.3] - 2024-01-01" ["line A", "line B"]
    "## [1.2.2] - 2023-01-01" ["line C"] (by decide) (by decide) (by decide) (by decide)
  exact h.trans (by decide)

/-- If no line ever matches the heading pattern, the scan stays in the
searching phase and returns its accumulator unchanged. -/
theorem scan_nofound (v : String) (doc : List String) :
    ∀ acc : List Char, (∀ l ∈ doc, heading_matches v l = false) →
      changelog_scan v doc false acc = acc := by
  induction doc with
  | nil => intro acc _; rfl
  | cons l ls ih =>
    intro acc h
    rw [show changelog_scan v (l :: ls) false acc =
        changelog_scan v ls (heading_matches v l) acc from rfl,
      h l (List.mem_cons_self l ls)]
    exact ih acc (fun x hx => h x (List.mem_cons_of_mem l hx))

/-- Claim C7: when no line of the document matches the heading pattern for
the requested version, `get_repo_changelog` returns the empty string — a
successful result, not an error. -/
theorem claim_C7_thm (v : String) (doc : List String)
    (h : ∀ l ∈ doc, heading_matches v l = false) :
    get_repo_changelog doc v = "" := by
  unfold get_repo_changelog
  rw [scan_nofound v doc [] h]

/-- Claim C7, witness: the document of the claim, for the absent version
`9.9.9`. -/
theorem claim_C7_wit :
    (∀ l ∈ ["## [1.2.3] - 2024-01-01", "line A", "line B",
            "## [1.2.2] - 2023-01-01", "line C"],
        heading_matches "9.9.9" l = false) ∧
    get_repo_changelog
        ["## [1.2.3] - 2024-01-01", "line A", "line B",
         "## [1.2.2] - 2023-01-01", "line C"] "9.9.9" = "" :=
  ⟨by decide,
   claim_C7_thm "9.9.9"
     ["## [1.2.3] - 2024-01-01", "line A", "line B",
      "## [1.2.2] - 2023-01-01", "line C"] (by decide)⟩

/-- Every accumulated line is newline-terminated, so the accumulator is
empty or ends with a newline, and the scan preserves this. -/
theorem scan_newline_inv (v : String) (doc : List String) :
    ∀ (found : Bool) (acc : List Char),
      (acc = [] ∨ ∃ s, acc = s ++ ['\n']) →
      (changelog_scan v doc found acc = [] ∨
        ∃ s, changelog_scan v doc found acc = s ++ ['\n']) := by
  induction doc with
  | nil => intro found acc h; exact h
  | cons l ls ih =>
    intro found acc h
    cases found with
    | false =>
      rw [show changelog_scan v (l :: ls) false acc =
          changelog_scan v ls (heading_matches v l) acc from rfl]
      exact ih (heading_matches v l) acc h
    | true =>
      rw [show changelog_scan v (l :: ls) true acc =
          (if starts_with_marker l then acc
           else changelog_scan v ls true (acc ++ l.toList ++ ['\n'])) from rfl]
      by_cases hs : starts_with_marker l
      · rw [hs]
        simpa using h
      · rw [Bool.not_eq_true] at hs
        rw [hs]
        simp only [Bool.false_eq_true, if_false]
        exact ih true (acc ++ l.toList ++ ['\n'])
          (Or.inr ⟨acc ++ l.toList, by simp [List.append_assoc]⟩)

/-- Claim C10: for every document and version, the extracted changelog text
is either empty or ends with a newline character. -/
theorem claim_C10_thm (doc : List String) (v : String) :
    get_repo_changelog doc v = "" ∨
      ∃ s : List Char, get_repo_changelog doc v = String.mk (s ++ ['\n']) := by
  unfold get_repo_changelog
  rcases scan_newline_inv v doc false [] (Or.inl rfl) with h | ⟨s, hs⟩
  · left
    rw [h]
  · right
    exact ⟨s, by rw [hs]⟩

/-- If no start position carries the digit-dot-digit-dot-digit core, none
of the positions checked by `contains_version_triple` does either, at any
depth. -/
theorem not_isSemAt_of_no_triple (s : String) (h : contains_version_triple s = false) :
    ∀ q, isSemAt (s.toList.drop q) = false := by
  intro q
  by_cases hq : q < s.toList.length + 1
  · rw [contains_version_triple, List.any_eq_false] at h
    have := h q (List.mem_range.mpr hq)
    simpa using this
  · have hlen : s.toList.length ≤ q := by omega
    rw [List.drop_eq_nil_of_le hlen]
    rfl

/-- Group 1 cannot rescue a match when the core matches nowhere. -/
theorem tryGroup1_eq_none (cs : List Char) (h : ∀ q, isSemAt (cs.drop q) = false) :
    ∀ n, tryGroup1 cs n = none := by
  intro n
  induction n with
  | zero => rfl
  | succ k ih => simp [tryGroup1, h (k + 1), ih]

/-- No match at a position when the core matches nowhere at or after it. -/
theorem matchAt_eq_none (cs : List Char) (h : ∀ q, isSemAt (cs.drop q) = false) :
    matchAt cs = none := by
  have h0 : isSemAt cs = false := by simpa using h 0
  simp [matchAt, tryGroup1_eq_none cs h, h0]

/-- No match at any position when the core matches nowhere. -/
theorem findGroup2_eq_none (cs : List Char) (h : ∀ q, isSemAt (cs.drop q) = false) :
    findGroup2 cs = none := by
  induction cs with
  | nil => rfl
  | cons c cs ih =>
    have hm := matchAt_eq_none (c :: cs) h
    rw [show findGroup2 (c :: cs) =
        (match matchAt (c :: cs) with
         | some r => some r
         | none => findGroup2 cs) from rfl, hm]
    exact ih (fun q => by simpa using h (q + 1))

/-- Claim C6: on every input with no digits-dot-digits-dot-digits
substring, the regex `([^.]+)?([\d]+\.[\d]+\.[\d].*)` has no match and
`extract_semantic` fails with the invalid-version error. -/
theorem claim_C6_thm (s : String) (h : contains_version_triple s = false) :
    extract_semantic s = Except.error KemennError.invalidVersion := by
  unfold extract_semantic
  rw [findGroup2_eq_none s.toList (not_isSemAt_of_no_triple s h)]

/-- Claim C6, witness: the digit-free input `hello`. -/
theorem claim_C6_wit :
    contains_version_triple "hello" = false ∧
    extract_semantic "hello" = Except.error KemennError.invalidVersion :=
  ⟨by decide, claim_C6_thm "hello" (by decide)⟩

/-- The regex `([^.]+)?([\d]+\.[\d]+\.[\d].*)` never matches the empty
string, so `extract_semantic` rejects it. -/
theorem extract_semantic_empty :
    extract_semantic "" = Except.error KemennError.invalidVersion := rfl

/-- Claim C3 (amended): under strict versioning, every successfully
resolved release record has a non-empty version — `extract_semantic` must
succeed on the resolved version, and it fails on the empty string.  (In
loose mode the resolved version is used verbatim and may be empty, as the
counterexample shows.) -/
theorem claim_C3_thm (env : RepoEnv) (vopt : Option String) (info : ReleaseInfo)
    (h : release_info false env vopt = Except.ok info) : info.version ≠ "" := by
  cases hu : env.url with
  | error e => simp [release_info, hu] at h
  | ok url =>
    cases hv : resolve_version env vopt with
    | error e => simp [release_info, hu, hv] at h
    | ok ver =>
      cases hx : extract_semantic ver with
      | error e => simp [release_info, hu, hv, hx] at h
      | ok sem =>
        cases hp : get_project_name url with
        | none => simp [release_info, hu, hv, hx, hp] at h
        | some project =>
          cases hc : env.changelog_lines with
          | error e => simp [release_info, hu, hv, hx, hp, hc] at h
          | ok doc =>
            simp only [release_info, hu, hv, hx, hp, hc, Bool.not_false, if_true] at h
            have hver : info.version = ver := by
              have hinj := Except.ok.inj h
              rw [← hinj]
            intro hemp
            rw [hver] at hemp
            rw [hemp] at hx
            rw [extract_semantic_empty] at hx
            exact Except.noConfusion hx

/-- Claim C3, witness: a strict-mode resolution that succeeds, with the
non-empty version `1.2.3`. -/
theorem claim_C3_wit :
    release_info false ⟨Except.ok "a/b.git", Except.ok "1.2.3", Except.ok []⟩ none =
      Except.ok { project := "b", url := "a/b.git", version := "1.2.3", changelog := "" } ∧
    ({ project := "b", url := "a/b.git", version := "1.2.3",
       changelog := "" } : ReleaseInfo).version ≠ "" :=
  ⟨rfl,
   claim_C3_thm ⟨Except.ok "a/b.git", Except.ok "1.2.3", Except.ok []⟩ none
     { project := "b", url := "a/b.git", version := "1.2.3", changelog := "" } rfl⟩

/-- Claim C3, counterexample: in loose mode with the explicit version `""`,
resolution succeeds and the version field of the returned record is empty. -/
theorem claim_C3_cex :
    release_info true ⟨Except.ok "a/b", Except.ok "t", Except.ok []⟩ (some "") =
      Except.ok { project := "b", url := "a/b", version := "", changelog := "" } ∧
    ({ project := "b", url := "a/b", version := "",
       changelog := "" } : ReleaseInfo).version = "" :=
  ⟨rfl, rfl⟩

/-- Claim C8: in every successful resolution the `version` field of the record
is the original resolved version — the explicit argument when given, the
latest tag otherwise — while the changelog text was looked up under the
semantic form produced by `extract_semantic` in strict mode and under the
resolved version verbatim in loose mode. -/
theorem claim_C8_thm (loose : Bool) (env : RepoEnv) (vopt : Option String)
    (info : ReleaseInfo) (h : release_info loose env vopt = Except.ok info) :
    ∃ doc, env.changelog_lines = Except.ok doc ∧
      (∀ v, vopt = some v → info.version = v) ∧
      (vopt = none → env.latest = Except.ok info.version) ∧
      (loose = true → info.changelog = get_repo_changelog doc info.version) ∧
      (loose = false →
        ∃ sem, extract_semantic info.version = Except.ok sem ∧
          info.changelog = get_repo_changelog doc sem) := by
  cases hu : env.url with
  | error e => simp [release_info, hu] at h
  | ok url =>
    cases hv : resolve_version env vopt with
    | error e => simp [release_info, hu, hv] at h
    | ok ver =>
      have hres1 : ∀ v, vopt = some v → ver = v := by
        intro v hveq
        rw [hveq] at hv
        exact (Except.ok.inj hv).symm
      have hres2 : vopt = none → env.latest = Except.ok ver := by
        intro hn
        rw [hn] at hv
        exact hv
      cases loose with
      | true =>
        cases hp : get_project_name url with
        | none => simp [release_info, hu, hv, hp] at h
        | some project =>
          cases hc : env.changelog_lines with
          | error e => simp [release_info, hu, hv, hp, hc] at h
          | ok doc =>
            simp [release_info, hu, hv, hp, hc] at h
            subst h
            refine ⟨doc, rfl, ?_, ?_, ?_, ?_⟩
            · intro v hveq
              exact hres1 v hveq
            · intro hn
              exact hres2 hn
            · intro _
              rfl
            · intro hfalse
              exact Bool.noConfusion hfalse
      | false =>
        cases hx : extract_semantic ver with
        | error e => simp [release_info, hu, hv, hx] at h
        | ok sem =>
          cases hp : get_project_name url with
          | none => simp [release_info, hu, hv, hx, hp] at h
          | some project =>
            cases hc : env.changelog_lines with
            | error e => simp [release_info, hu, hv, hx, hp, hc] at h
            | ok doc =>
              simp [release_info, hu, hv, hx, hp, hc] at h
              subst h
              refine ⟨doc, rfl, ?_, ?_, ?_, ?_⟩
              · intro v hveq
                exact hres1 v hveq
              · intro hn
                exact hres2 hn
              · intro htrue
                exact Bool.noConfusion htrue
              · intro _
                exact ⟨sem, hx, rfl⟩

/-- Claim C8, witness: resolving `envC8` strictly with no explicit version
succeeds; the record keeps the raw tag `v-1.2.3` as its version while the
changelog was looked up under the extracted semantic form `1.2.3`. -/
theorem claim_C8_wit :
    release_info false envC8 none = Except.ok infoC8 ∧
    ∃ doc, envC8.changelog_lines = Except.ok doc ∧
      (∀ v, (none : Option String) = some v → infoC8.version = v) ∧
      ((none : Option String) = none → envC8.latest = Except.ok infoC8.version) ∧
      (false = true → infoC8.changelog = get_repo_changelog doc infoC8.version) ∧
      (false = false →
        ∃ sem, extract_semantic infoC8.version = Except.ok sem ∧
          infoC8.changelog = get_repo_changelog doc sem) :=
  ⟨rfl, claim_C8_thm false envC8 none infoC8 rfl⟩
